import Mathlib

/-!
Verification of the core of a Discord AI assistant bot: a shallow embedding
of the conversation-history store, the VoiceVox parameter store, the text
normalization utilities, the mention replacement step, and the response
orchestrator, together with theorems settling the specified properties.

Python dictionaries are modelled as association lists whose first binding of
a key is the visible one; assignment replaces the first binding in place or
appends a fresh one, matching insertion-ordered Python dict semantics.
Machine floats appear only as the language-ratio threshold 0.95, modelled as
the exact fraction 95/100 with a cross-multiplied comparison (the ratios the
program compares are far from the rounding gap of the float literal).
-/

namespace Bot

/-- JSON-style values stored in configuration mappings and query objects. -/
inductive JVal where
  | null
  | num (q : ℚ)
  | bool (b : Bool)
  | str (s : String)
  deriving DecidableEq, Repr

/-- Model of a Python dict with string keys: an association list where the
first binding of a key is the one observed by lookups. -/
abbrev Dict := List (String × JVal)

/-- Lookup in a Python dict (first binding wins). -/
def dlookup (d : Dict) (k : String) : Option JVal :=
  match d with
  | [] => none
  | (k1, v) :: rest => if k1 = k then some v else dlookup rest k

/-- Assignment d[k] = v in a Python dict: replace the first binding of k in
place, or append a fresh binding when k is absent. -/
def dinsert (d : Dict) (k : String) (v : JVal) : Dict :=
  match d with
  | [] => [(k, v)]
  | (k1, v1) :: rest => if k1 = k then (k1, v) :: rest else (k1, v1) :: dinsert rest k v

/-- Python dict.update: assign every binding of the second dict in order. -/
def dupdate (d : Dict) (c : Dict) : Dict :=
  c.foldl (fun acc kv => dinsert acc kv.1 kv.2) d

/-- Key list of a dict, in insertion order. -/
def dkeys (d : Dict) : List String := d.map Prod.fst

namespace VoiceVoxConfig

/-- Translation of VoiceVoxConfig.DEFAULTS from services/voice_config.py,
in the order the source writes the literal. -/
def DEFAULTS : Dict :=
  [ ("speedScale", JVal.num 1),
    ("pitchScale", JVal.num 0),
    ("intonationScale", JVal.num 1),
    ("volumeScale", JVal.num (3/2)),
    ("prePhonemeLength", JVal.num (1/10)),
    ("postPhonemeLength", JVal.num (1/10)),
    ("pauseLength", JVal.null),
    ("pauseLengthScale", JVal.num (9/10)),
    ("outputSamplingRate", JVal.num 44100),
    ("outputStereo", JVal.bool true) ]

/-- Membership test key in DEFAULTS, as used by VoiceVoxConfig.set. -/
def isRecognized (k : String) : Bool := (dkeys DEFAULTS).contains k

/-- Translation of VoiceVoxConfig.__init__: start from a deep copy of the
defaults and, when a truthy config mapping is supplied, dict.update with it. -/
def mk : Option Dict → Dict
  | none => DEFAULTS
  | some c => if c = [] then DEFAULTS else dupdate DEFAULTS c

/-- Translation of VoiceVoxConfig.set: raise KeyError on a key outside
DEFAULTS, otherwise assign. -/
def set (d : Dict) (k : String) (v : JVal) : Except String Dict :=
  if isRecognized k then Except.ok (dinsert d k v)
  else Except.error ("Invalid config key: " ++ k)

/-- Translation of VoiceVoxConfig.get: Python dict.get, returning None for
an absent key. -/
def get (d : Dict) (k : String) : JVal := (dlookup d k).getD JVal.null

/-- Translation of VoiceVoxConfig.reset: restore a deep copy of DEFAULTS. -/
def reset (_d : Dict) : Dict := DEFAULTS

/-- Translation of VoiceVoxConfig.as_dict: a deep copy of the mapping,
which for pure values is the mapping itself. -/
def as_dict (d : Dict) : Dict := d

/-- Translation of VoiceVoxConfig.apply_to_query: copy the query, then for
each config binding in order overwrite the query key when the config value
is not None and the key is already present in the query. -/
def apply_to_query (d : Dict) (query_data : Dict) : Dict :=
  d.foldl
    (fun updated kv =>
      if kv.2 ≠ JVal.null ∧ (dkeys updated).contains kv.1
      then dinsert updated kv.1 kv.2
      else updated)
    query_data

/-- Translation of VoiceVoxConfig.save: persist the current mapping (the
file content is modelled as the mapping it encodes). -/
def save (d : Dict) : Dict := d

/-- Translation of VoiceVoxConfig.load: when the persisted file exists,
json-load its mapping and construct a config from it; on a missing file,
construct defaults (and persist them). -/
def load : Option Dict → Dict
  | some data => mk (some data)
  | none => mk none

/-- Invariant tested by the claims: every key present in the mapping is one
of the ten recognized keys. -/
def allRecognized (d : Dict) : Bool := d.all (fun kv => isRecognized kv.1)

/-- Invariant describing reachable configs: every recognized key has some
binding in the mapping. -/
def hasAllDefaults (d : Dict) : Bool :=
  (dkeys DEFAULTS).all (fun k => (dlookup d k).isSome)

end VoiceVoxConfig

/-- One entry of the conversation history: a Python dict with role and
content fields. -/
structure Msg where
  role : String
  content : String
  deriving DecidableEq, Repr

/-- State of ChatHistoryManager from services/chat_history.py: the window
parameter and the per-guild defaultdict of message lists (absent guilds map
to the empty list). -/
structure ChatHistoryManager where
  latest_n : Nat
  hist : Nat → List Msg

/-- Translation of ChatHistoryManager.__init__. -/
def initManager (latest_n : Nat) : ChatHistoryManager :=
  ⟨latest_n, fun _ => []⟩

/-- Replacement of one guild's list inside the defaultdict. -/
def ChatHistoryManager.setHist (m : ChatHistoryManager) (guild_id : Nat)
    (l : List Msg) : ChatHistoryManager :=
  { m with hist := fun g => if g = guild_id then l else m.hist g }

/-- Python slice l[-n:]. For n = 0 the slice l[-0:] is l[0:], the whole
list; for positive n it keeps the last n elements. -/
def pySliceLast (n : Nat) (l : List Msg) : List Msg :=
  if n = 0 then l else l.drop (l.length - n)

/-- Translation of ChatHistoryManager._trim_history. -/
def ChatHistoryManager.trim_history (m : ChatHistoryManager) (guild_id : Nat) :
    ChatHistoryManager :=
  if m.latest_n * 2 < (m.hist guild_id).length
  then m.setHist guild_id (pySliceLast (m.latest_n * 2) (m.hist guild_id))
  else m

/-- Translation of ChatHistoryManager.add_user_message; the reading of the
wall clock is passed in as the timestamp argument. -/
def ChatHistoryManager.add_user_message (m : ChatHistoryManager)
    (guild_id : Nat) (timestamp user_name content : String) : ChatHistoryManager :=
  (m.setHist guild_id
      (m.hist guild_id ++
        [⟨"user", "[time: " ++ timestamp ++ "] " ++ user_name ++ ": " ++ content⟩])).trim_history
    guild_id

/-- Translation of ChatHistoryManager.add_assistant_message; the bot_name
argument is accepted and unused, as in the source. -/
def ChatHistoryManager.add_assistant_message (m : ChatHistoryManager)
    (guild_id : Nat) (timestamp _bot_name content : String) : ChatHistoryManager :=
  (m.setHist guild_id
      (m.hist guild_id ++
        [⟨"assistant", "[time: " ++ timestamp ++ "] " ++ content⟩])).trim_history
    guild_id

/-- Translation of ChatHistoryManager.get_latest_history. -/
def ChatHistoryManager.get_latest_history (m : ChatHistoryManager)
    (guild_id : Nat) : List Msg :=
  pySliceLast (m.latest_n * 2) (m.hist guild_id)

/-- One append operation issued to the history store, with the timestamp the
clock produced for it. -/
inductive HistEvent where
  | user (timestamp user_name content : String)
  | assistant (timestamp bot_name content : String)
  deriving DecidableEq, Repr

/-- Message stored for an append, as built by the add methods. -/
def encodeEvent : HistEvent → Msg
  | .user timestamp user_name content =>
      ⟨"user", "[time: " ++ timestamp ++ "] " ++ user_name ++ ": " ++ content⟩
  | .assistant timestamp _ content =>
      ⟨"assistant", "[time: " ++ timestamp ++ "] " ++ content⟩

/-- Dispatch of one append to the store. -/
def applyEvent (guild_id : Nat) (m : ChatHistoryManager) :
    HistEvent → ChatHistoryManager
  | .user timestamp user_name content =>
      m.add_user_message guild_id timestamp user_name content
  | .assistant timestamp bot_name content =>
      m.add_assistant_message guild_id timestamp bot_name content

/-- A whole sequence of appends to one scope, oldest first. -/
def runEvents (m : ChatHistoryManager) (guild_id : Nat)
    (es : List HistEvent) : ChatHistoryManager :=
  es.foldl (applyEvent guild_id) m

/-- Last n elements of a list (all of it when it is shorter than n). -/
def takeRight (n : Nat) (l : List Msg) : List Msg :=
  l.drop (l.length - n)

/-- Whitespace as stripped by Python str.strip and matched by the regex
class backslash-s: ASCII blanks plus the common Unicode spaces the inputs
of this program can contain. -/
def isPySpace (c : Char) : Bool :=
  c = ' ' || c = '\t' || c = '\n' || c = '\r' || c = '\x0b' || c = '\x0c' ||
  c = ' ' || c = '　'

/-- Sentence terminators of the split pattern in utils/text.py: the
lookbehind class of the ideographic full stop, fullwidth exclamation mark,
fullwidth question mark and horizontal ellipsis. -/
def isTerminator (c : Char) : Bool :=
  c = '。' || c = '！' || c = '？' || c = '…'

/-- CHINESE_PATTERN of utils/text.py: CJK unified ideographs, extension A
and compatibility ideographs. -/
def isChineseChar (c : Char) : Bool :=
  (0x4E00 ≤ c.toNat && c.toNat ≤ 0x9FFF) ||
  (0x3400 ≤ c.toNat && c.toNat ≤ 0x4DBF) ||
  (0xF900 ≤ c.toNat && c.toNat ≤ 0xFAFF)

/-- LETTER_PATTERN of utils/text.py: the Chinese ranges plus Hiragana and
Katakana. -/
def isLetterCJ (c : Char) : Bool :=
  isChineseChar c ||
  (0x3040 ≤ c.toNat && c.toNat ≤ 0x309F) ||
  (0x30A0 ≤ c.toNat && c.toNat ≤ 0x30FF)

/-- Python str.strip: drop whitespace from both ends. -/
def strip (s : List Char) : List Char :=
  (((s.dropWhile isPySpace).reverse).dropWhile isPySpace).reverse

/-- Translation of re.split with a lookbehind on the terminator class: cut
after every terminator; the final piece is the residue after the last
terminator and may be empty. -/
def splitAfter : List Char → List (List Char)
  | [] => [[]]
  | c :: rest =>
    if isTerminator c then [c] :: splitAfter rest
    else
      match splitAfter rest with
      | [] => [[c]]
      | p :: ps => (c :: p) :: ps

/-- Loop body of remove_chinese_sentences: keep a sentence without letters
verbatim (stripped), drop a sentence whose Chinese ratio exceeds the
threshold, keep everything else stripped. The threshold is the exact
fraction thrN over thrD, and the source's comparison
chinese_count / letter_count > threshold is written in the equivalent
cross-multiplied form, which for a positive letter count and positive
denominator is the same comparison. -/
def keepSentence (thrN : ℤ) (thrD : ℕ) (s : List Char) : Option (List Char) :=
  let letters := s.filter isLetterCJ
  let chinese_chars := s.filter isChineseChar
  if letters.length = 0 then some (strip s)
  else if thrN * (letters.length : ℤ) < (chinese_chars.length : ℤ) * (thrD : ℤ)
    then none
  else some (strip s)

/-- Translation of remove_chinese_sentences from utils/text.py: split into
sentences, filter by the Chinese ratio (threshold thrN / thrD, by default
95/100), join the survivors with no separator. -/
def remove_chinese_sentences (text : List Char) (thrN : ℤ) (thrD : ℕ) : List Char :=
  ((splitAfter text).filterMap (keepSentence thrN thrD)).flatten

/-- Shape of every sentence piece but the last produced by the split: some
terminator-free prefix followed by one terminator. -/
def isBody (p : List Char) : Prop :=
  ∃ q c, p = q ++ [c] ∧ isTerminator c = true ∧ ∀ x ∈ q, isTerminator x = false

/-- Absence of sentence terminators, the shape of the final residue piece. -/
def noTerm (p : List Char) : Prop :=
  ∀ x ∈ p, isTerminator x = false

/-- Index of the first closing bracket of a time tag, scanning a line: the
regex body is non-greedy and the dot does not cross a newline. -/
def closeAt : List Char → Option Nat
  | [] => none
  | c :: cs =>
    if c = ']' then some 0
    else if c = '\n' then none
    else (closeAt cs).map (· + 1)

/-- Match of the TIME_TAG_PATTERN regex at the head of s. On success the
returned count n is measured from the tail of s: the characters of the tag
are the head plus the first n characters of the tail. -/
def timeTagAt (s : List Char) : Option Nat :=
  match s with
  | '[' :: 't' :: 'i' :: 'm' :: 'e' :: ':' :: ' ' :: rest =>
      (closeAt rest).map (fun k => 6 + (k + 1))
  | _ => none

/-- Translation of remove_time_tag from utils/text.py: delete every
non-overlapping match of the bracketed time annotation together with the
whitespace that follows it, scanning left to right. -/
def remove_time_tag : List Char → List Char
  | [] => []
  | c :: cs =>
    match timeTagAt (c :: cs) with
    | some n => remove_time_tag ((cs.drop n).dropWhile isPySpace)
    | none => c :: remove_time_tag cs
  termination_by s => s.length
  decreasing_by
  · simp only [List.length_cons]
    exact Nat.lt_succ_of_le
      ((List.dropWhile_sublist _).length_le.trans ((List.drop_sublist _ _).length_le))
  · simp

/-- String-level wrapper of remove_time_tag. -/
def removeTimeTagS (s : String) : String :=
  ⟨remove_time_tag s.data⟩

/-- Decimal digit test of the regex class backslash-d (ASCII digits). -/
def isDigitChar (c : Char) : Bool :=
  '0' ≤ c && c ≤ '9'

/-- Value of a run of decimal digits, as computed by Python int. -/
def digitsVal (ds : List Char) : Nat :=
  ds.foldl (fun n c => 10 * n + (c.toNat - 48)) 0

/-- Optional ampersand of the mention regex: present when the character
after the angle-at prefix is an ampersand. -/
def ampOf (rest : List Char) : Bool :=
  match rest with
  | c3 :: _ => c3 = '&'
  | [] => false

/-- Digits-and-closing-bracket part of the mention regex: one or more
digits followed by a closing angle bracket. On success the pair holds the
captured id and the number of characters consumed. -/
def parseDigitsClose (rest1 : List Char) : Option (Nat × Nat) :=
  let ds := rest1.takeWhile isDigitChar
  match rest1.drop ds.length with
  | '>' :: _ =>
      if ds = [] then none
      else some (digitsVal ds, ds.length + 1)
  | _ => none

/-- Match of the mention regex at the head of s: a literal angle-at prefix,
an optional ampersand, one or more digits captured as the id, and a closing
angle bracket. On success the pair holds the captured id and the count of
matched characters measured from the tail of s. -/
def matchMention (s : List Char) : Option (Nat × Nat) :=
  match s with
  | c1 :: c2 :: rest =>
    if c1 = '<' ∧ c2 = '@' then
      let amp := ampOf rest
      let rest1 := if amp then rest.tail else rest
      (parseDigitsClose rest1).map
        (fun p => (p.1, 1 + (if amp then 1 else 0) + p.2))
    else none
  | _ => none

/-- Replacement text produced for one matched mention: the display name
prefixed with an at sign when the id resolves, otherwise the mention
rebuilt from the parsed integer id. -/
def mentionRepl (mention_map : Nat → Option String) (user_id : Nat) : List Char :=
  match mention_map user_id with
  | some user_name => '@' :: user_name.data
  | none => ('<' :: '@' :: (toString user_id).data) ++ ['>']

/-- Translation of replace_mentions from services/message_preprocessor.py
(the same code as AIResponder._replace_mentions_with_names): substitute
every match of the mention regex, scanning left to right. -/
def replace_mentions (mention_map : Nat → Option String) : List Char → List Char
  | [] => []
  | c :: cs =>
    match matchMention (c :: cs) with
    | some (user_id, n) => mentionRepl mention_map user_id ++ replace_mentions mention_map (cs.drop n)
    | none => c :: replace_mentions mention_map cs
  termination_by s => s.length
  decreasing_by
  · simp only [List.length_cons]
    exact Nat.lt_succ_of_le ((List.drop_sublist _ _).length_le)
  · simp

/-- Message attachment as seen by get_answer: the declared content type
(possibly None) and the bytes returned by read, modelled as an opaque
numeric identifier. -/
structure Attachment where
  content_type : Option String
  data : Nat
  deriving DecidableEq, Repr

/-- Guard of the image branch: attachment.content_type is truthy and starts
with the image prefix (the empty string fails startswith anyway). -/
def isImage (a : Attachment) : Bool :=
  match a.content_type with
  | some ct => "image/".data.isPrefixOf ct.data
  | none => false

/-- Content type of an attachment that passed the image guard. -/
def mimeOf (a : Attachment) : String := a.content_type.getD ""

/-- External LLM collaborator (GeminiService) as an oracle: its two entry
points used by get_answer, as functions from the request to the returned
text. -/
structure LLMOracle where
  describe : Nat → String → String → String
  askWithHistory : List Msg → String → String

/-- Concrete oracle whose answers are fixed strings, used to evaluate the
orchestrator at specific inputs. -/
def sampleOracle : LLMOracle :=
  ⟨fun _ _ _ => "desc", fun _ _ => "ans"⟩

/-- One observable request issued to the LLM collaborator. -/
inductive LLMCall where
  | describeImage (data : Nat) (mime : String) (text : String)
  | askHist (history : List Msg) (user_message : String)
  deriving DecidableEq, Repr

/-- Chat-with-history call test on a trace element. -/
def isChatCall : LLMCall → Bool
  | .askHist _ _ => true
  | _ => false

/-- Describe-image call test on a trace element. -/
def isDescribeCall : LLMCall → Bool
  | .describeImage _ _ _ => true
  | _ => false

/-- History rendered for the combined image prompt: one role-colon-content
line per turn, joined with newlines. -/
def renderHistory (h : List Msg) : String :=
  String.intercalate "\n" (h.map (fun m => m.role ++ ": " ++ m.content))

/-- Translation of AIResponder.get_answer from services/ai_responder.py.
The source is returned to the caller as the answer; the wall-clock readings
of the two history appends are the timestamp arguments, the external LLM is
the oracle, and the result carries the answer, the updated history store and
the trace of LLM requests. The loop over attachments returns inside its
first image iteration, so it is rendered as the first attachment passing the
image guard; when none does, control falls through to the text path, where
the appends happen only under add_to_history. -/
def get_answer (o : LLMOracle) (m : ChatHistoryManager) (guild_id : Nat)
    (user_name bot_name question : String) (attachments : List Attachment)
    (add_to_history : Bool) (ts1 ts2 : String) :
    String × ChatHistoryManager × List LLMCall :=
  let history := m.get_latest_history guild_id
  match attachments.find? isImage with
  | some attachment =>
      let history_text := renderHistory history
      let combined_prompt := history_text ++ "\n" ++ user_name ++ ": " ++ question
      let answer := removeTimeTagS (o.describe attachment.data (mimeOf attachment) combined_prompt)
      let m1 := m.add_user_message guild_id ts1 user_name ("[sent image] " ++ question)
      let m2 := m1.add_assistant_message guild_id ts2 bot_name answer
      (answer, m2, [LLMCall.describeImage attachment.data (mimeOf attachment) combined_prompt])
  | none =>
      let user_message := user_name ++ ": " ++ question
      let answer := removeTimeTagS (o.askWithHistory history user_message)
      let m2 :=
        if add_to_history then
          (m.add_user_message guild_id ts1 user_name question).add_assistant_message
            guild_id ts2 bot_name answer
        else m
      (answer, m2, [LLMCall.askHist history user_message])

/-! Lemmas about the dict model. -/

theorem dlookup_dinsert_self (d : Dict) (k : String) (v : JVal) :
    dlookup (dinsert d k v) k = some v := by
  induction d with
  | nil => simp [dinsert, dlookup]
  | cons hd tl ih =>
    obtain ⟨k1, v1⟩ := hd
    by_cases h : k1 = k <;> simp [dinsert, dlookup, h, ih]

theorem dlookup_dinsert_ne (d : Dict) (k k2 : String) (v : JVal)
    (h : k ≠ k2) : dlookup (dinsert d k v) k2 = dlookup d k2 := by
  induction d with
  | nil => simp [dinsert, dlookup, h]
  | cons hd tl ih =>
    obtain ⟨k1, v1⟩ := hd
    by_cases h1 : k1 = k
    · subst h1
      simp [dinsert, dlookup, h]
    · simp [dinsert, dlookup, h1, ih]

theorem dlookup_isSome_iff (d : Dict) (k : String) :
    (dlookup d k).isSome = true ↔ k ∈ dkeys d := by
  induction d with
  | nil => simp [dlookup, dkeys]
  | cons hd tl ih =>
    obtain ⟨k1, v1⟩ := hd
    by_cases h : k1 = k
    · subst h
      simp [dlookup, dkeys]
    · have hd1 : dlookup ((k1, v1) :: tl) k = dlookup tl k := by
        simp [dlookup, h]
      have hk1 : (k ∈ dkeys ((k1, v1) :: tl)) ↔ k ∈ dkeys tl := by
        simp only [dkeys, List.map_cons, List.mem_cons]
        constructor
        · rintro (h2 | hm)
          · exact absurd h2.symm h
          · exact hm
        · exact fun hm => Or.inr hm
      rw [hd1, hk1]
      exact ih

theorem dlookup_eq_none (d : Dict) (k : String) (h : k ∉ dkeys d) :
    dlookup d k = none := by
  by_contra hne
  exact h ((dlookup_isSome_iff d k).mp (Option.isSome_iff_ne_none.mpr hne))

theorem dkeys_dinsert_of_mem (d : Dict) (k : String) (v : JVal)
    (h : k ∈ dkeys d) : dkeys (dinsert d k v) = dkeys d := by
  induction d with
  | nil => simp [dkeys] at h
  | cons hd tl ih =>
    obtain ⟨k1, v1⟩ := hd
    by_cases h1 : k1 = k
    · simp [dinsert, dkeys, h1]
    · have hmem : k ∈ dkeys tl := by
        rcases List.mem_cons.mp (show k ∈ k1 :: dkeys tl from h) with h2 | h2
        · exact absurd h2.symm h1
        · exact h2
      have hstep : dinsert ((k1, v1) :: tl) k v = (k1, v1) :: dinsert tl k v := by
        simp [dinsert, h1]
      rw [hstep]
      show k1 :: dkeys (dinsert tl k v) = k1 :: dkeys tl
      rw [ih hmem]

theorem dlookup_dupdate (c : Dict) :
    ∀ d : Dict, ∀ k : String, (dkeys c).Nodup →
      dlookup (dupdate d c) k = (dlookup c k).or (dlookup d k) := by
  induction c with
  | nil => intro d k _; simp [dupdate, dlookup]
  | cons hd tl ih =>
    intro d k hc
    obtain ⟨k1, v1⟩ := hd
    have hc2 : k1 ∉ dkeys tl ∧ (dkeys tl).Nodup :=
      List.nodup_cons.mp (show (k1 :: dkeys tl).Nodup from hc)
    have hstep : dupdate d ((k1, v1) :: tl) = dupdate (dinsert d k1 v1) tl := rfl
    rw [hstep, ih _ k hc2.2]
    by_cases h : k1 = k
    · subst h
      rw [dlookup_eq_none tl k1 hc2.1, dlookup_dinsert_self]
      simp [dlookup]
    · rw [dlookup_dinsert_ne d k1 k v1 h]
      simp [dlookup, h]

theorem allRecognized_iff (d : Dict) :
    VoiceVoxConfig.allRecognized d = true ↔
      ∀ kv ∈ d, VoiceVoxConfig.isRecognized kv.1 = true := by
  simp [VoiceVoxConfig.allRecognized, List.all_eq_true]

theorem allRecognized_dinsert (d : Dict) (k : String) (v : JVal)
    (hk : VoiceVoxConfig.isRecognized k = true)
    (hd : VoiceVoxConfig.allRecognized d = true) :
    VoiceVoxConfig.allRecognized (dinsert d k v) = true := by
  induction d with
  | nil => simp [dinsert, VoiceVoxConfig.allRecognized, hk]
  | cons hd1 tl ih =>
    obtain ⟨k1, v1⟩ := hd1
    rw [allRecognized_iff] at hd
    have h1 := hd (k1, v1) (List.mem_cons_self _ _)
    have htl : VoiceVoxConfig.allRecognized tl = true := by
      rw [allRecognized_iff]
      intro kv hkv
      exact hd kv (List.mem_cons_of_mem _ hkv)
    by_cases h : k1 = k
    · rw [allRecognized_iff]
      intro kv hkv
      rcases List.mem_cons.mp (by simpa [dinsert, h] using hkv) with h2 | h2
      · subst h2; exact hk
      · exact (allRecognized_iff tl).mp htl kv h2
    · rw [allRecognized_iff]
      intro kv hkv
      rcases List.mem_cons.mp (by simpa [dinsert, h] using hkv) with h2 | h2
      · subst h2; exact h1
      · exact (allRecognized_iff _).mp (ih htl) kv h2

theorem allRecognized_dupdate (c : Dict) :
    ∀ d : Dict, VoiceVoxConfig.allRecognized c = true →
      VoiceVoxConfig.allRecognized d = true →
      VoiceVoxConfig.allRecognized (dupdate d c) = true := by
  induction c with
  | nil =>
    intro d _ hd
    simpa [dupdate] using hd
  | cons hd1 tl ih =>
    intro d hc hd
    obtain ⟨k1, v1⟩ := hd1
    rw [allRecognized_iff] at hc
    have h1 := hc (k1, v1) (List.mem_cons_self _ _)
    have htl : VoiceVoxConfig.allRecognized tl = true := by
      rw [allRecognized_iff]
      intro kv hkv
      exact hc kv (List.mem_cons_of_mem _ hkv)
    exact ih _ htl (allRecognized_dinsert d k1 v1 h1 hd)

theorem dcontains_eq_isSome (q : Dict) (k : String) :
    (dkeys q).contains k = (dlookup q k).isSome := by
  by_cases h : k ∈ dkeys q
  · rw [(dlookup_isSome_iff q k).mpr h]
    exact List.elem_iff.mpr h
  · rw [dlookup_eq_none q k h]
    show (dkeys q).contains k = false
    rw [← Bool.not_eq_true]
    intro hc
    exact h (List.elem_iff.mp hc)

/-! Theorems for the claims about the voice parameter store. -/

/-- C10: VoiceVoxConfig.get is a total read: it returns the stored value
for a present key and None for an absent or unrecognized key, while set
rejects a write to an unrecognized key with an error. -/
theorem voice_config_get_total (d : Dict) (k : String) :
    (∀ v, dlookup d k = some v → VoiceVoxConfig.get d k = v) ∧
    (dlookup d k = none → VoiceVoxConfig.get d k = JVal.null) ∧
    (∀ v, VoiceVoxConfig.isRecognized k = false →
      VoiceVoxConfig.set d k v = Except.error ("Invalid config key: " ++ k)) := by
  refine ⟨?_, ?_, ?_⟩
  · intro v hv
    simp [VoiceVoxConfig.get, hv]
  · intro hv
    simp [VoiceVoxConfig.get, hv]
  · intro v hk
    simp [VoiceVoxConfig.set, hk]

theorem voice_config_get_total_witness :
    VoiceVoxConfig.get VoiceVoxConfig.DEFAULTS "pauseLength" = JVal.null ∧
    VoiceVoxConfig.get VoiceVoxConfig.DEFAULTS "unknownKey" = JVal.null ∧
    VoiceVoxConfig.set VoiceVoxConfig.DEFAULTS "unknownKey" (JVal.num 1) =
      Except.error "Invalid config key: unknownKey" :=
  ⟨(voice_config_get_total VoiceVoxConfig.DEFAULTS "pauseLength").1 JVal.null (by decide),
   (voice_config_get_total VoiceVoxConfig.DEFAULTS "unknownKey").2.1 (by decide),
   (voice_config_get_total VoiceVoxConfig.DEFAULTS "unknownKey").2.2 (JVal.num 1) (by decide)⟩

/-- C2 counterexample: constructing a config from a persisted mapping that
carries an unrecognized key stores that key, so the recognized-key
invariant is not preserved by construction (dict.update inserts foreign
keys verbatim). -/
theorem voice_config_foreign_key_cex :
    VoiceVoxConfig.allRecognized
      (VoiceVoxConfig.mk (some [("bogus", JVal.num 1)])) = false := by
  decide

/-- C2 amended: set fails on an unrecognized key without touching the
mapping, a successful set preserves the recognized-key invariant, reset
establishes it, and construction or load preserves it provided the supplied
persisted mapping itself carries only recognized keys. -/
theorem voice_config_key_invariant :
    VoiceVoxConfig.allRecognized VoiceVoxConfig.DEFAULTS = true ∧
    (∀ d k v, VoiceVoxConfig.isRecognized k = false →
      VoiceVoxConfig.set d k v = Except.error ("Invalid config key: " ++ k)) ∧
    (∀ d d2 k v, VoiceVoxConfig.set d k v = Except.ok d2 →
      VoiceVoxConfig.allRecognized d = true →
      VoiceVoxConfig.allRecognized d2 = true) ∧
    (∀ c, VoiceVoxConfig.allRecognized c = true →
      VoiceVoxConfig.allRecognized (VoiceVoxConfig.mk (some c)) = true) ∧
    (∀ data, VoiceVoxConfig.allRecognized data = true →
      VoiceVoxConfig.allRecognized (VoiceVoxConfig.load (some data)) = true) ∧
    (∀ d, VoiceVoxConfig.allRecognized (VoiceVoxConfig.reset d) = true) := by
  have hdef : VoiceVoxConfig.allRecognized VoiceVoxConfig.DEFAULTS = true := by decide
  have hmk : ∀ c, VoiceVoxConfig.allRecognized c = true →
      VoiceVoxConfig.allRecognized (VoiceVoxConfig.mk (some c)) = true := by
    intro c hc
    by_cases h : c = []
    · simpa [VoiceVoxConfig.mk, h] using hdef
    · rw [show VoiceVoxConfig.mk (some c) = dupdate VoiceVoxConfig.DEFAULTS c by
        simp [VoiceVoxConfig.mk, h]]
      exact allRecognized_dupdate c _ hc hdef
  refine ⟨hdef, ?_, ?_, hmk, ?_, ?_⟩
  · intro d k v hk
    simp [VoiceVoxConfig.set, hk]
  · intro d d2 k v hset hd
    by_cases hk : VoiceVoxConfig.isRecognized k = true
    · have : d2 = dinsert d k v := by
        simp [VoiceVoxConfig.set, hk] at hset
        exact hset.symm
      rw [this]
      exact allRecognized_dinsert d k v hk hd
    · simp [VoiceVoxConfig.set, Bool.eq_false_iff.mpr hk] at hset
  · intro data hdata
    exact hmk data hdata
  · intro d
    exact hdef

theorem voice_config_key_invariant_witness :
    VoiceVoxConfig.isRecognized "unknownKey" = false ∧
    VoiceVoxConfig.set VoiceVoxConfig.DEFAULTS "unknownKey" (JVal.num 1) =
      Except.error "Invalid config key: unknownKey" ∧
    VoiceVoxConfig.allRecognized
      (VoiceVoxConfig.mk (some [("speedScale", JVal.num 2)])) = true :=
  ⟨by decide,
   voice_config_key_invariant.2.1 VoiceVoxConfig.DEFAULTS "unknownKey" (JVal.num 1) (by decide),
   voice_config_key_invariant.2.2.2.1 [("speedScale", JVal.num 2)] (by decide)⟩

/-- C7: apply_to_query leaves keys whose config value is None at the query
object's original value, overwrites keys present in both the config and the
query with the non-null config value, and never adds a key to the query
object. The hypothesis that the config mapping binds each key once holds
for every Python dict. -/
theorem apply_to_query_characterization (d : Dict) :
    ∀ q : Dict, (dkeys d).Nodup →
      dkeys (VoiceVoxConfig.apply_to_query d q) = dkeys q ∧
      ∀ k, dlookup (VoiceVoxConfig.apply_to_query d q) k =
        (dlookup d k).elim (dlookup q k)
          (fun v =>
            if v ≠ JVal.null ∧ (dlookup q k).isSome = true then some v
            else dlookup q k) := by
  induction d with
  | nil =>
    intro q _
    exact ⟨rfl, fun k => rfl⟩
  | cons hd tl ih =>
    intro q hnd
    obtain ⟨k1, v1⟩ := hd
    have hnd2 : k1 ∉ dkeys tl ∧ (dkeys tl).Nodup :=
      List.nodup_cons.mp (show (k1 :: dkeys tl).Nodup from hnd)
    have hstep : VoiceVoxConfig.apply_to_query ((k1, v1) :: tl) q =
        VoiceVoxConfig.apply_to_query tl
          (if v1 ≠ JVal.null ∧ (dkeys q).contains k1 = true
           then dinsert q k1 v1 else q) := rfl
    set q1 : Dict :=
      (if v1 ≠ JVal.null ∧ (dkeys q).contains k1 = true
       then dinsert q k1 v1 else q) with hq1
    have hkeys : dkeys q1 = dkeys q := by
      by_cases hg : v1 ≠ JVal.null ∧ (dkeys q).contains k1 = true
      · rw [hq1, if_pos hg]
        exact dkeys_dinsert_of_mem q k1 v1 (List.elem_iff.mp hg.2)
      · rw [hq1, if_neg hg]
    obtain ⟨ihk, ihl⟩ := ih q1 hnd2.2
    refine ⟨by rw [hstep, ihk, hkeys], ?_⟩
    intro k
    rw [hstep, ihl k]
    by_cases hk : k1 = k
    · subst hk
      have htl_none : dlookup tl k1 = none := dlookup_eq_none tl k1 hnd2.1
      have hhd : dlookup ((k1, v1) :: tl) k1 = some v1 := by simp [dlookup]
      rw [htl_none, hhd]
      show dlookup q1 k1 = _
      simp only [Option.elim]
      by_cases hg : v1 ≠ JVal.null ∧ (dlookup q k1).isSome = true
      · have hg2 : v1 ≠ JVal.null ∧ (dkeys q).contains k1 = true :=
          ⟨hg.1, by rw [dcontains_eq_isSome]; exact hg.2⟩
        rw [hq1, if_pos hg2, if_pos hg]
        exact dlookup_dinsert_self q k1 v1
      · have hg2 : ¬ (v1 ≠ JVal.null ∧ (dkeys q).contains k1 = true) := by
          rw [dcontains_eq_isSome]
          exact hg
        rw [hq1, if_neg hg2, if_neg hg]
    · have hhd : dlookup ((k1, v1) :: tl) k = dlookup tl k := by
        simp [dlookup, hk]
      have hq1k : dlookup q1 k = dlookup q k := by
        by_cases hg : v1 ≠ JVal.null ∧ (dkeys q).contains k1 = true
        · rw [hq1, if_pos hg]
          exact dlookup_dinsert_ne q k1 k v1 hk
        · rw [hq1, if_neg hg]
      rw [hhd, hq1k]

theorem apply_to_query_characterization_witness :
    (dkeys VoiceVoxConfig.DEFAULTS).Nodup ∧
    dkeys
        (VoiceVoxConfig.apply_to_query VoiceVoxConfig.DEFAULTS
          [("speedScale", JVal.num 7), ("pauseLength", JVal.num 3), ("accent", JVal.num 4)]) =
      dkeys [("speedScale", JVal.num 7), ("pauseLength", JVal.num 3), ("accent", JVal.num 4)] :=
  ⟨by decide,
   (apply_to_query_characterization VoiceVoxConfig.DEFAULTS
      [("speedScale", JVal.num 7), ("pauseLength", JVal.num 3), ("accent", JVal.num 4)]
      (by decide)).1⟩

/-- C8: persisting a config and loading it back yields a config whose
mapping agrees with the original on every key. The hypotheses — each key
bound once, every default key present — hold for every mapping reachable
through the constructor, set and reset, since construction starts from
DEFAULTS and no operation removes a key. -/
theorem save_load_round_trip (d : Dict)
    (h1 : (dkeys d).Nodup) (h2 : VoiceVoxConfig.hasAllDefaults d = true) :
    ∀ k, dlookup (VoiceVoxConfig.as_dict
        (VoiceVoxConfig.load (some (VoiceVoxConfig.save d)))) k =
      dlookup (VoiceVoxConfig.as_dict d) k := by
  intro k
  have hne : d ≠ [] := by
    intro h
    rw [h] at h2
    exact absurd h2 (by decide)
  have hload : VoiceVoxConfig.load (some (VoiceVoxConfig.save d)) =
      dupdate VoiceVoxConfig.DEFAULTS d := by
    simp [VoiceVoxConfig.load, VoiceVoxConfig.save, VoiceVoxConfig.mk, hne]
  rw [VoiceVoxConfig.as_dict, VoiceVoxConfig.as_dict, hload,
    dlookup_dupdate d VoiceVoxConfig.DEFAULTS k h1]
  cases hdk : dlookup d k with
  | some v => rfl
  | none =>
    have hnm : k ∉ dkeys d := by
      intro hmem
      have hs := (dlookup_isSome_iff d k).mpr hmem
      rw [hdk] at hs
      exact absurd hs (by decide)
    have hnr : k ∉ dkeys VoiceVoxConfig.DEFAULTS := by
      intro hmem
      have := List.all_eq_true.mp h2 k hmem
      rw [dlookup_eq_none d k hnm] at this
      exact absurd this (by decide)
    rw [dlookup_eq_none VoiceVoxConfig.DEFAULTS k hnr]
    rfl

theorem save_load_round_trip_witness :
    (dkeys VoiceVoxConfig.DEFAULTS).Nodup ∧
    VoiceVoxConfig.hasAllDefaults VoiceVoxConfig.DEFAULTS = true ∧
    dlookup (VoiceVoxConfig.as_dict
        (VoiceVoxConfig.load (some (VoiceVoxConfig.save VoiceVoxConfig.DEFAULTS))))
        "volumeScale" =
      dlookup (VoiceVoxConfig.as_dict VoiceVoxConfig.DEFAULTS) "volumeScale" :=
  ⟨by decide, by decide,
   save_load_round_trip VoiceVoxConfig.DEFAULTS (by decide) (by decide) "volumeScale"⟩

/-! Lemmas and theorems for the conversation history store. -/

theorem takeRight_length (n : Nat) (l : List Msg) :
    (takeRight n l).length = l.length - (l.length - n) := by
  simp [takeRight]

theorem pySliceLast_of_le (n : Nat) (l : List Msg) (h : l.length ≤ n) :
    pySliceLast n l = l := by
  unfold pySliceLast
  split
  · rfl
  · rw [Nat.sub_eq_zero_of_le h, List.drop_zero]

/-- Appending one element to a window that already holds the last t elements
and trimming as _trim_history does yields the last t elements of the longer
list, for every positive window size t. -/
theorem takeRight_step (t : Nat) (ht : 0 < t) (L : List Msg) (x : Msg) :
    (if t < (takeRight t L ++ [x]).length
     then pySliceLast t (takeRight t L ++ [x])
     else takeRight t L ++ [x]) = takeRight t (L ++ [x]) := by
  have hlen : (takeRight t L).length = L.length - (L.length - t) :=
    takeRight_length t L
  by_cases hc : t ≤ L.length
  · have hcond : t < (takeRight t L ++ [x]).length := by
      simp only [List.length_append, List.length_singleton, hlen]
      omega
    rw [if_pos hcond]
    have htR : (takeRight t L).length = t := by omega
    unfold pySliceLast
    rw [if_neg (by omega)]
    have hdroplen : (takeRight t L ++ [x]).length - t = 1 := by
      simp only [List.length_append, List.length_singleton, hlen]
      omega
    rw [hdroplen, List.drop_append_of_le_length (by omega)]
    unfold takeRight
    rw [List.drop_drop, List.drop_append_of_le_length (by simp; omega)]
    simp only [List.length_append, List.length_singleton]
    have : L.length - t + 1 = L.length + 1 - t := by omega
    rw [this]
  · have hL : takeRight t L = L := by
      unfold takeRight
      rw [Nat.sub_eq_zero_of_le (by omega), List.drop_zero]
    have hcond : ¬ t < (takeRight t L ++ [x]).length := by
      simp only [hL, List.length_append, List.length_singleton]
      omega
    rw [if_neg hcond, hL]
    unfold takeRight
    rw [Nat.sub_eq_zero_of_le (by simp; omega), List.drop_zero]

/-- Unfolding of one append through the event dispatcher. -/
theorem applyEvent_eq (guild_id : Nat) (m : ChatHistoryManager) (e : HistEvent) :
    applyEvent guild_id m e =
      (m.setHist guild_id (m.hist guild_id ++ [encodeEvent e])).trim_history guild_id := by
  cases e <;> rfl

/-- After any sequence of appends to one scope starting from a fresh store
with positive window parameter k, the stored list for that scope is exactly
the last 2k encoded appends, and the window parameter is unchanged. -/
theorem runEvents_state (k guild_id : Nat) (hk : 1 ≤ k) (es : List HistEvent) :
    (runEvents (initManager k) guild_id es).latest_n = k ∧
    (runEvents (initManager k) guild_id es).hist guild_id =
      takeRight (k * 2) (es.map encodeEvent) := by
  induction es using List.reverseRecOn with
  | nil =>
    refine ⟨rfl, ?_⟩
    simp [runEvents, initManager, takeRight]
  | append_singleton l e ih =>
    obtain ⟨ihn, ihh⟩ := ih
    have hrun : runEvents (initManager k) guild_id (l ++ [e]) =
        applyEvent guild_id (runEvents (initManager k) guild_id l) e := by
      simp [runEvents, List.foldl_append]
    set m : ChatHistoryManager := runEvents (initManager k) guild_id l with hm
    rw [hrun, applyEvent_eq]
    set L : List Msg := l.map encodeEvent with hL
    have hset : (m.setHist guild_id (m.hist guild_id ++ [encodeEvent e])).hist guild_id =
        takeRight (k * 2) L ++ [encodeEvent e] := by
      simp [ChatHistoryManager.setHist, ihh]
    have hsetn : (m.setHist guild_id (m.hist guild_id ++ [encodeEvent e])).latest_n = k := by
      simp [ChatHistoryManager.setHist, ihn]
    constructor
    · unfold ChatHistoryManager.trim_history
      split <;> simp [ChatHistoryManager.setHist, hsetn, ihn]
    · unfold ChatHistoryManager.trim_history
      rw [hsetn, hset]
      have hmap : (l ++ [e]).map encodeEvent = L ++ [encodeEvent e] := by
        simp [hL]
      rw [hmap]
      rw [← takeRight_step (k * 2) (by omega) L (encodeEvent e)]
      by_cases hc : k * 2 < (takeRight (k * 2) L ++ [encodeEvent e]).length
      · rw [if_pos hc, if_pos hc]
        simp [ChatHistoryManager.setHist, hset]
      · rw [if_neg hc, if_neg hc]
        exact hset

/-- C1 amended: for every positive window parameter k and every sequence of
appends to one scope, get_latest_history returns at most 2k turns, namely
exactly the most recently appended ones oldest-first, and the stored list
never exceeds 2k turns after any prefix of the mutations. For k = 0 the
source behaves differently, see the counterexample. -/
theorem chat_history_window (k guild_id : Nat) (hk : 1 ≤ k) (es : List HistEvent) :
    (runEvents (initManager k) guild_id es).get_latest_history guild_id =
      takeRight (k * 2) (es.map encodeEvent) ∧
    ((runEvents (initManager k) guild_id es).get_latest_history guild_id).length ≤ k * 2 ∧
    ∀ pre, pre.IsPrefix es →
      ((runEvents (initManager k) guild_id pre).hist guild_id).length ≤ k * 2 := by
  obtain ⟨hn, hh⟩ := runEvents_state k guild_id hk es
  have hbound : ∀ fs : List HistEvent,
      ((runEvents (initManager k) guild_id fs).hist guild_id).length ≤ k * 2 := by
    intro fs
    obtain ⟨_, hh2⟩ := runEvents_state k guild_id hk fs
    rw [hh2, takeRight_length]
    omega
  have hlat : (runEvents (initManager k) guild_id es).get_latest_history guild_id =
      takeRight (k * 2) (es.map encodeEvent) := by
    unfold ChatHistoryManager.get_latest_history
    rw [hn, hh]
    apply pySliceLast_of_le
    rw [takeRight_length]
    omega
  refine ⟨hlat, ?_, fun pre _ => hbound pre⟩
  rw [hlat, takeRight_length]
  omega

/-- C1 counterexample: with latest_n = 0 the source slices with l[-0:],
which is the whole list, so one append already leaves more than 2 * 0 turns
both stored and returned. -/
theorem chat_history_k0_cex :
    ¬ (((runEvents (initManager 0) 0
          [HistEvent.user "00:00" "alice" "hi"]).get_latest_history 0).length ≤ 0 * 2) := by
  decide

theorem chat_history_window_witness :
    1 ≤ 1 ∧
    (runEvents (initManager 1) 0
        [HistEvent.user "t1" "alice" "hi",
         HistEvent.assistant "t2" "bot" "hello",
         HistEvent.user "t3" "alice" "again"]).get_latest_history 0 =
      takeRight (1 * 2)
        ([HistEvent.user "t1" "alice" "hi",
          HistEvent.assistant "t2" "bot" "hello",
          HistEvent.user "t3" "alice" "again"].map encodeEvent) :=
  ⟨Nat.le_refl 1,
   (chat_history_window 1 0 (Nat.le_refl 1)
      [HistEvent.user "t1" "alice" "hi",
       HistEvent.assistant "t2" "bot" "hello",
       HistEvent.user "t3" "alice" "again"]).1⟩

/-! Lemmas and theorems for the language-ratio sentence filter. -/

theorem terminator_not_space (c : Char) (h : isTerminator c = true) :
    isPySpace c = false := by
  simp only [isTerminator, Bool.or_eq_true, decide_eq_true_eq] at h
  rcases h with ((h | h) | h) | h <;> subst h <;> decide

theorem splitAfter_noTerm (s : List Char) (h : noTerm s) :
    splitAfter s = [s] := by
  induction s with
  | nil => rfl
  | cons c cs ih =>
    have hc : isTerminator c = false := h c (List.mem_cons_self _ _)
    have hcs : noTerm cs := fun x hx => h x (List.mem_cons_of_mem _ hx)
    simp [splitAfter, hc, ih hcs]

theorem splitAfter_body_append (q : List Char) :
    ∀ c y, isTerminator c = true → (∀ x ∈ q, isTerminator x = false) →
      splitAfter ((q ++ [c]) ++ y) = (q ++ [c]) :: splitAfter y := by
  induction q with
  | nil =>
    intro c y hc _
    simp [splitAfter, hc]
  | cons a q1 ih =>
    intro c y hc hq
    have ha : isTerminator a = false := hq a (List.mem_cons_self _ _)
    have hq1 : ∀ x ∈ q1, isTerminator x = false :=
      fun x hx => hq x (List.mem_cons_of_mem _ hx)
    have hrec := ih c y hc hq1
    have hcons : ((a :: q1) ++ [c]) ++ y = a :: ((q1 ++ [c]) ++ y) := by simp
    rw [hcons]
    simp only [splitAfter, ha, Bool.false_eq_true, if_false, hrec]
    simp

theorem splitAfter_decomp (t : List Char) :
    ∃ ps r, splitAfter t = ps ++ [r] ∧ (∀ p ∈ ps, isBody p) ∧ noTerm r := by
  induction t with
  | nil =>
    exact ⟨[], [], rfl, by simp, by simp [noTerm]⟩
  | cons c cs ih =>
    obtain ⟨ps, r, hsp, hbody, hr⟩ := ih
    by_cases hc : isTerminator c = true
    · refine ⟨[c] :: ps, r, ?_, ?_, hr⟩
      · simp [splitAfter, hc, hsp]
      · intro p hp
        rcases List.mem_cons.mp hp with h | h
        · subst h
          exact ⟨[], c, by simp, hc, by simp⟩
        · exact hbody p h
    · have hc2 : isTerminator c = false := by
        rw [← Bool.not_eq_true]
        exact hc
      cases ps with
      | nil =>
        refine ⟨[], c :: r, ?_, by simp, ?_⟩
        · simp only [List.nil_append] at hsp
          simp [splitAfter, hc2, hsp]
        · intro x hx
          rcases List.mem_cons.mp hx with h | h
          · subst h; exact hc2
          · exact hr x h
      | cons p1 ps1 =>
        refine ⟨(c :: p1) :: ps1, r, ?_, ?_, hr⟩
        · simp only [List.cons_append] at hsp
          simp [splitAfter, hc2, hsp]
        · intro p hp
          rcases List.mem_cons.mp hp with h | h
          · subst h
            obtain ⟨q, d, hpd, hd, hqn⟩ := hbody p1 (List.mem_cons_self _ _)
            refine ⟨c :: q, d, by simp [hpd], hd, ?_⟩
            intro x hx
            rcases List.mem_cons.mp hx with h2 | h2
            · subst h2; exact hc2
            · exact hqn x h2
          · exact hbody p (List.mem_cons_of_mem _ h)

theorem splitAfter_flatten (K : List (List Char)) :
    ∀ R, (∀ p ∈ K, isBody p) → noTerm R →
      splitAfter (K.flatten ++ R) = K ++ [R] := by
  induction K with
  | nil =>
    intro R _ hR
    simpa using splitAfter_noTerm R hR
  | cons p K1 ih =>
    intro R hK hR
    obtain ⟨q, c, hpd, hc, hqn⟩ := hK p (List.mem_cons_self _ _)
    have hassoc : (p :: K1).flatten ++ R = (q ++ [c]) ++ (K1.flatten ++ R) := by
      simp [hpd, List.append_assoc]
    rw [hassoc, splitAfter_body_append q c (K1.flatten ++ R) hc hqn,
      ih R (fun x hx => hK x (List.mem_cons_of_mem _ hx)) hR, ← hpd]
    rfl

theorem mem_strip (p : List Char) (x : Char) (hx : x ∈ strip p) : x ∈ p := by
  unfold strip at hx
  rw [List.mem_reverse] at hx
  have h1 := (List.dropWhile_sublist (l := (List.dropWhile isPySpace p).reverse)
    (p := isPySpace)).subset hx
  rw [List.mem_reverse] at h1
  exact (List.dropWhile_sublist (l := p) (p := isPySpace)).subset h1

theorem strip_noTerm (p : List Char) (h : noTerm p) : noTerm (strip p) :=
  fun x hx => h x (mem_strip p x hx)

theorem dropWhile_append_stop (q : List Char) (c : Char)
    (hc : isPySpace c = false) :
    (q ++ [c]).dropWhile isPySpace = q.dropWhile isPySpace ++ [c] := by
  induction q with
  | nil => simp [List.dropWhile, hc]
  | cons a q1 ih =>
    by_cases ha : isPySpace a = true
    · simp [List.dropWhile, ha, ih]
    · have ha2 : isPySpace a = false := by
        rw [← Bool.not_eq_true]; exact ha
      simp [List.dropWhile, ha2]

theorem strip_body_eq (q : List Char) (c : Char) (hc : isPySpace c = false) :
    strip (q ++ [c]) = q.dropWhile isPySpace ++ [c] := by
  unfold strip
  rw [dropWhile_append_stop q c hc, List.reverse_append]
  simp only [List.reverse_cons, List.reverse_nil, List.nil_append,
    List.singleton_append, List.dropWhile, hc]
  simp

theorem strip_isBody (p : List Char) (h : isBody p) : isBody (strip p) := by
  obtain ⟨q, c, hpd, hc, hqn⟩ := h
  refine ⟨q.dropWhile isPySpace, c, ?_, hc, ?_⟩
  · rw [hpd, strip_body_eq q c (terminator_not_space c hc)]
  · intro x hx
    exact hqn x ((List.dropWhile_sublist _).subset hx)

theorem keepSentence_some (thrN : ℤ) (thrD : ℕ) (s v : List Char)
    (h : keepSentence thrN thrD s = some v) : v = strip s := by
  simp only [keepSentence] at h
  split_ifs at h <;> simp_all

theorem filterMap_keep_sublist (thrN : ℤ) (thrD : ℕ) (l : List (List Char)) :
    (l.filterMap (keepSentence thrN thrD)).Sublist (l.map strip) := by
  induction l with
  | nil => simp
  | cons s l1 ih =>
    cases hk : keepSentence thrN thrD s with
    | none =>
      rw [List.filterMap_cons_none hk, List.map_cons]
      exact ih.trans (List.sublist_cons_self _ _)
    | some v =>
      rw [List.filterMap_cons_some hk, List.map_cons,
        keepSentence_some thrN thrD s v hk]
      exact ih.cons₂ (strip s)

/-- C6: splitting the output of the sentence filter the same way the input
was split yields at most as many sentences, and the surviving sentences are
a subsequence of the stripped input sentences (followed by the possibly
empty residue), so nothing is duplicated or reordered, for every input and
every ratio threshold. -/
theorem remove_foreign_monotone (text : List Char) (thrN : ℤ) (thrD : ℕ) :
    (splitAfter (remove_chinese_sentences text thrN thrD)).length ≤
      (splitAfter text).length ∧
    (splitAfter (remove_chinese_sentences text thrN thrD)).Sublist
      ((splitAfter text).map strip ++ [[]]) := by
  obtain ⟨ps, r, hsp, hbody, hr⟩ := splitAfter_decomp text
  have hKbody : ∀ p ∈ (ps.filterMap (keepSentence thrN thrD)), isBody p := by
    intro p hp
    obtain ⟨s, hs, hks⟩ := List.mem_filterMap.mp hp
    rw [keepSentence_some thrN thrD s p hks]
    exact strip_isBody s (hbody s hs)
  have hKlen : (ps.filterMap (keepSentence thrN thrD)).length ≤ ps.length :=
    (filterMap_keep_sublist thrN thrD ps).length_le.trans (by simp)
  have hrm : remove_chinese_sentences text thrN thrD =
      (ps.filterMap (keepSentence thrN thrD)).flatten ++
        ((List.filterMap (keepSentence thrN thrD) [r]).flatten) := by
    unfold remove_chinese_sentences
    rw [hsp, List.filterMap_append, List.flatten_append]
  cases hkr : keepSentence thrN thrD r with
  | some v =>
    have hv : v = strip r := keepSentence_some thrN thrD r v hkr
    have hflat : (List.filterMap (keepSentence thrN thrD) [r]).flatten = v := by
      simp [List.filterMap_cons_some hkr]
    have hout : splitAfter (remove_chinese_sentences text thrN thrD) =
        ps.filterMap (keepSentence thrN thrD) ++ [v] := by
      rw [hrm, hflat]
      exact splitAfter_flatten _ v hKbody (hv ▸ strip_noTerm r hr)
    constructor
    · rw [hout, hsp]
      simp only [List.length_append, List.length_singleton]
      omega
    · rw [hout, hsp, List.map_append, List.map_singleton, List.append_assoc]
      exact (filterMap_keep_sublist thrN thrD ps).append
        (by rw [hv]; exact List.sublist_append_left _ _)
  | none =>
    have hflat : (List.filterMap (keepSentence thrN thrD) [r]).flatten = [] := by
      simp [List.filterMap_cons_none hkr]
    have hout : splitAfter (remove_chinese_sentences text thrN thrD) =
        ps.filterMap (keepSentence thrN thrD) ++ [[]] := by
      rw [hrm, hflat, List.append_nil]
      have := splitAfter_flatten (ps.filterMap (keepSentence thrN thrD)) [] hKbody
        (by simp [noTerm])
      simpa using this
    constructor
    · rw [hout, hsp]
      simp only [List.length_append, List.length_singleton]
      omega
    · rw [hout, hsp, List.map_append, List.map_singleton]
      exact ((filterMap_keep_sublist thrN thrD ps).trans
        (List.sublist_append_left _ _)).append (List.Sublist.refl _)

/-- C5: evaluation of the sentence filter at the documented example input.
The dropped middle sentence is pure Chinese, and the survivors are stripped
and joined with no separator, so no space appears before the second
retained sentence, contradicting the expected output recorded in the
repository's own test suite. -/
theorem remove_foreign_example_eval :
    remove_chinese_sentences "これは日本語。這是中文句子。次の日本語！".data 95 100 =
      "これは日本語。次の日本語！".data ∧
    remove_chinese_sentences "これは日本語。這是中文句子。次の日本語！".data 95 100 ≠
      "これは日本語。 次の日本語！".data := by
  constructor
  · decide
  · decide

/-! Lemmas and theorems for the mention replacement step. -/

theorem matchMention_none_of_ne (c : Char) (cs : List Char) (h : ¬ c = '<') :
    matchMention (c :: cs) = none := by
  cases cs with
  | nil => rfl
  | cons c2 rest =>
    simp only [matchMention]
    rw [if_neg]
    intro hand
    exact h hand.1

theorem replace_mentions_pass (mention_map : Nat → Option String) (pre : List Char)
    (h : ∀ c ∈ pre, ¬ c = '<') :
    ∀ rest, replace_mentions mention_map (pre ++ rest) =
      pre ++ replace_mentions mention_map rest := by
  induction pre with
  | nil => intro rest; simp
  | cons a pre1 ih =>
    intro rest
    have ha : ¬ a = '<' := h a (List.mem_cons_self _ _)
    have h1 : ∀ c ∈ pre1, ¬ c = '<' := fun c hc => h c (List.mem_cons_of_mem _ hc)
    rw [List.cons_append, replace_mentions, matchMention_none_of_ne a _ ha]
    rw [ih h1 rest]
    rfl

theorem digit_ne_amp (c : Char) (h : isDigitChar c = true) : ¬ c = '&' := by
  intro he
  subst he
  exact absurd h (by decide)

theorem takeWhile_digits (ds : List Char) (hds : ∀ c ∈ ds, isDigitChar c = true)
    (c : Char) (hc : isDigitChar c = false) (post : List Char) :
    (ds ++ c :: post).takeWhile isDigitChar = ds := by
  induction ds with
  | nil => simp [List.takeWhile, hc]
  | cons d ds1 ih =>
    have hd : isDigitChar d = true := hds d (List.mem_cons_self _ _)
    rw [List.cons_append, List.takeWhile_cons, hd]
    simp only [if_true]
    rw [ih (fun x hx => hds x (List.mem_cons_of_mem _ hx))]

theorem parseDigitsClose_spec (ds post : List Char)
    (hd : ds ≠ []) (hds : ∀ c ∈ ds, isDigitChar c = true) :
    parseDigitsClose (ds ++ '>' :: post) = some (digitsVal ds, ds.length + 1) := by
  have htake : (ds ++ '>' :: post).takeWhile isDigitChar = ds :=
    takeWhile_digits ds hds '>' (by decide) post
  have hdrop : (ds ++ '>' :: post).drop ds.length = '>' :: post :=
    List.drop_left ds ('>' :: post)
  simp only [parseDigitsClose, htake, hdrop]
  rw [if_neg hd]

theorem matchMention_token (amp : Bool) (ds post : List Char)
    (hd : ds ≠ []) (hds : ∀ c ∈ ds, isDigitChar c = true) :
    matchMention ('<' :: '@' :: ((if amp then ['&'] else []) ++ ds ++ ('>' :: post))) =
      some (digitsVal ds, 1 + (if amp then 1 else 0) + ds.length + 1) := by
  obtain ⟨d0, ds1, rfl⟩ : ∃ d0 ds1, ds = d0 :: ds1 := by
    cases ds with
    | nil => exact absurd rfl hd
    | cons a b => exact ⟨a, b, rfl⟩
  have hd0 : isDigitChar d0 = true := hds d0 (List.mem_cons_self _ _)
  have hparse := parseDigitsClose_spec (d0 :: ds1) post hd hds
  cases amp with
  | false =>
    have hshape : ((if false then ['&'] else []) ++ (d0 :: ds1) ++ ('>' :: post)) =
        d0 :: (ds1 ++ '>' :: post) := by simp
    rw [hshape]
    simp only [matchMention]
    rw [if_pos (⟨trivial, trivial⟩ : True ∧ True)]
    have hamp : ampOf (d0 :: (ds1 ++ '>' :: post)) = false := by
      simp only [ampOf]
      exact decide_eq_false (digit_ne_amp d0 hd0)
    simp only [hamp, Bool.false_eq_true, if_false]
    rw [show d0 :: (ds1 ++ '>' :: post) = (d0 :: ds1) ++ '>' :: post from rfl, hparse]
    simp
    omega
  | true =>
    have hshape : ((if true then ['&'] else []) ++ (d0 :: ds1) ++ ('>' :: post)) =
        '&' :: ((d0 :: ds1) ++ '>' :: post) := by simp
    rw [hshape]
    simp only [matchMention]
    rw [if_pos (⟨trivial, trivial⟩ : True ∧ True)]
    have hamp : ampOf ('&' :: ((d0 :: ds1) ++ '>' :: post)) = true := by
      simp [ampOf]
    simp only [hamp, if_true, List.tail_cons]
    rw [hparse]
    simp
    omega

theorem replace_mentions_token (mention_map : Nat → Option String) (amp : Bool)
    (ds post : List Char) (hd : ds ≠ []) (hds : ∀ c ∈ ds, isDigitChar c = true) :
    replace_mentions mention_map
        ('<' :: '@' :: ((if amp then ['&'] else []) ++ ds ++ ('>' :: post))) =
      mentionRepl mention_map (digitsVal ds) ++ replace_mentions mention_map post := by
  have hm := matchMention_token amp ds post hd hds
  rw [replace_mentions, hm]
  simp only []
  congr 1
  have hdrop : ('@' :: ((if amp then ['&'] else []) ++ ds ++ ('>' :: post))).drop
      (1 + (if amp then 1 else 0) + ds.length + 1) = post := by
    have hsplit : ('@' :: ((if amp then ['&'] else []) ++ ds ++ ('>' :: post))) =
        ('@' :: ((if amp then ['&'] else []) ++ ds ++ ['>'])) ++ post := by
      simp
    have hlen : ('@' :: ((if amp then ['&'] else []) ++ ds ++ ['>'])).length =
        1 + (if amp then 1 else 0) + ds.length + 1 := by
      cases amp <;> simp <;> omega
    rw [hsplit, ← hlen, List.drop_left]
  rw [hdrop]

/-- C9 counterexample: an unresolved role mention is not preserved character
for character; the replacement step rebuilds it from the captured digits and
drops the ampersand. -/
theorem replace_mentions_amp_cex :
    replace_mentions (fun _ => none) "<@&5>".data ≠ "<@&5>".data := by
  have hform : ("<@&5>".data) =
      '<' :: '@' :: ((if true then ['&'] else []) ++ ['5'] ++ ('>' :: ([] : List Char))) := rfl
  have hnil : replace_mentions (fun _ => none : Nat → Option String) [] = [] := by
    simp [replace_mentions]
  rw [hform, replace_mentions_token (fun _ => none) true ['5'] [] (by decide) (by decide), hnil]
  decide

/-- C9 amended: every matched role or user mention token is replaced by the
display name prefixed with an at sign when the id resolves; when it does not
resolve, the output is the token rebuilt from the parsed integer id in the
user-mention form, so the role marker and any leading zeros of the raw token
are dropped rather than the token being preserved character for character.
Text before the token that contains no opening angle bracket passes through
unchanged. -/
theorem replace_mentions_spec (mention_map : Nat → Option String)
    (pre ds post : List Char) (amp : Bool) (hpre : ∀ c ∈ pre, ¬ c = '<')
    (hd : ds ≠ []) (hds : ∀ c ∈ ds, isDigitChar c = true) :
    replace_mentions mention_map
        (pre ++ ('<' :: '@' :: ((if amp then ['&'] else []) ++ ds ++ ('>' :: post)))) =
      pre ++ (mentionRepl mention_map (digitsVal ds) ++
        replace_mentions mention_map post) := by
  rw [replace_mentions_pass mention_map pre hpre _,
    replace_mentions_token mention_map amp ds post hd hds]

theorem replace_mentions_spec_witness :
    (∀ c ∈ ("hi ".data), ¬ c = '<') ∧
    replace_mentions (fun n => if n = 1 then some "Alice" else none)
        ("hi ".data ++
          ('<' :: '@' :: ((if false then ['&'] else []) ++ ['1'] ++ ('>' :: [])))) =
      "hi ".data ++
        (mentionRepl (fun n => if n = 1 then some "Alice" else none) (digitsVal ['1']) ++
          replace_mentions (fun n => if n = 1 then some "Alice" else none) []) :=
  ⟨by decide,
   replace_mentions_spec (fun n => if n = 1 then some "Alice" else none)
     "hi ".data ['1'] [] false (by decide) (by decide) (by decide)⟩

/-! Theorems for the response orchestrator. -/

/-- C4 amended: with no image attachment the history store is mutated
exactly when add_to_history is set, receiving one user turn and one
assistant turn; with an image attachment the image branch appends the user
turn (with the sent-image prefix) and the assistant turn unconditionally,
ignoring add_to_history. -/
theorem get_answer_history_effects (o : LLMOracle) (m : ChatHistoryManager)
    (guild_id : Nat) (user_name bot_name question : String)
    (attachments : List Attachment) (add_to_history : Bool) (ts1 ts2 : String) :
    (attachments.find? isImage = none → add_to_history = false →
      (get_answer o m guild_id user_name bot_name question attachments
        add_to_history ts1 ts2).2.1 = m) ∧
    (attachments.find? isImage = none → add_to_history = true →
      (get_answer o m guild_id user_name bot_name question attachments
          add_to_history ts1 ts2).2.1 =
        (m.add_user_message guild_id ts1 user_name question).add_assistant_message
          guild_id ts2 bot_name
          (removeTimeTagS (o.askWithHistory (m.get_latest_history guild_id)
            (user_name ++ ": " ++ question)))) ∧
    (∀ a, attachments.find? isImage = some a →
      (get_answer o m guild_id user_name bot_name question attachments
          add_to_history ts1 ts2).2.1 =
        (m.add_user_message guild_id ts1 user_name
            ("[sent image] " ++ question)).add_assistant_message guild_id ts2 bot_name
          (removeTimeTagS (o.describe a.data (mimeOf a)
            (renderHistory (m.get_latest_history guild_id) ++ "\n" ++
              user_name ++ ": " ++ question)))) := by
  refine ⟨?_, ?_, ?_⟩
  · intro hfind hadd
    simp [get_answer, hfind, hadd]
  · intro hfind hadd
    simp [get_answer, hfind, hadd]
  · intro a hfind
    simp [get_answer, hfind]

/-- C4 counterexample: an image invocation with add_to_history set to false
still mutates the history store. -/
theorem get_answer_suppress_cex :
    ¬ ((get_answer sampleOracle (initManager 1) 0 "u" "b" "q"
        [⟨some "image/png", 7⟩] false "t1" "t2").2.1.hist 0 =
      (initManager 1).hist 0) := by
  decide

theorem get_answer_history_effects_witness :
    (([] : List Attachment).find? isImage = none) ∧
    (get_answer sampleOracle (initManager 1) 0 "u" "b" "q" [] false "t1" "t2").2.1 =
      initManager 1 :=
  ⟨rfl,
   (get_answer_history_effects sampleOracle (initManager 1) 0 "u" "b" "q" []
      false "t1" "t2").1 rfl rfl⟩

/-- C3 amended: on a turn whose attachments contain an image, get_answer
issues exactly one LLM request, a describe-image call on the first image
attachment whose prompt is the rendered history followed by the
speaker-prefixed question; its time-tag-stripped result is the final
answer, and no chat-with-history call is made (no per-image description
tags exist in the source). -/
theorem get_answer_image_flow (o : LLMOracle) (m : ChatHistoryManager)
    (guild_id : Nat) (user_name bot_name question : String)
    (attachments : List Attachment) (add_to_history : Bool) (ts1 ts2 : String)
    (a : Attachment) (h : attachments.find? isImage = some a) :
    (get_answer o m guild_id user_name bot_name question attachments
        add_to_history ts1 ts2).2.2 =
      [LLMCall.describeImage a.data (mimeOf a)
        (renderHistory (m.get_latest_history guild_id) ++ "\n" ++
          user_name ++ ": " ++ question)] ∧
    (get_answer o m guild_id user_name bot_name question attachments
        add_to_history ts1 ts2).1 =
      removeTimeTagS (o.describe a.data (mimeOf a)
        (renderHistory (m.get_latest_history guild_id) ++ "\n" ++
          user_name ++ ": " ++ question)) ∧
    ((get_answer o m guild_id user_name bot_name question attachments
        add_to_history ts1 ts2).2.2.filter isChatCall).length = 0 ∧
    ((get_answer o m guild_id user_name bot_name question attachments
        add_to_history ts1 ts2).2.2.filter isDescribeCall).length = 1 := by
  refine ⟨?_, ?_, ?_, ?_⟩ <;> simp [get_answer, h, isChatCall, isDescribeCall]

/-- C3 counterexample: a two-image turn produces zero chat-with-history
calls and a single describe-image call, not one description per image
followed by one chat call. -/
theorem get_answer_image_cex :
    ((get_answer sampleOracle (initManager 1) 0 "u" "b" "q"
        [⟨some "image/png", 7⟩, ⟨some "image/png", 8⟩] true "t1" "t2").2.2.filter
      isChatCall).length = 0 ∧
    ((get_answer sampleOracle (initManager 1) 0 "u" "b" "q"
        [⟨some "image/png", 7⟩, ⟨some "image/png", 8⟩] true "t1" "t2").2.2.filter
      isDescribeCall).length = 1 := by
  constructor <;> decide

theorem get_answer_image_flow_witness :
    ([(⟨some "image/png", 7⟩ : Attachment)].find? isImage =
      some (⟨some "image/png", 7⟩ : Attachment)) ∧
    (get_answer sampleOracle (initManager 1) 0 "u" "b" "q"
        [⟨some "image/png", 7⟩] true "t1" "t2").2.2 =
      [LLMCall.describeImage (Attachment.data ⟨some "image/png", 7⟩)
        (mimeOf ⟨some "image/png", 7⟩)
        (renderHistory ((initManager 1).get_latest_history 0) ++ "\n" ++
          "u" ++ ": " ++ "q")] :=
  ⟨rfl,
   (get_answer_image_flow sampleOracle (initManager 1) 0 "u" "b" "q"
      [⟨some "image/png", 7⟩] true "t1" "t2" ⟨some "image/png", 7⟩ rfl).1⟩

end Bot
